import Mathlib

/-!
Verification development for the storage kernel of the cmuDB repository:
shallow embeddings of the buffer pool manager, LRU replacer, extendible
hash page table, disk manager and B+ tree node operations, together with
theorems settling the specification claims against the code.

Machine integers of the source (int, size_t, page_id_t) are modelled as
Int or Nat; none of the claims exercise overflow. Keys of the B+ tree are
modelled as Int compared through the integer comparator, matching
GenericComparator, whose operator returns negative, zero or positive.
-/

set_option autoImplicit false

namespace CmuDB

/-- Sentinel page id, INVALID_PAGE_ID = -1 in common/config.h. -/
def INVALID_PAGE_ID : Int := -1

/-- Fixed page size, PAGE_SIZE = 4096 in common/config.h. -/
def PAGE_SIZE : Nat := 4096

/-- Integer comparator, modelling GenericComparator: negative when a < b,
zero when equal, positive when a > b. -/
def cmpInt (a b : Int) : Int :=
  if a < b then -1 else if b < a then 1 else 0

/-- Association list lookup, first entry with the matching key. Used to
model the maps of the source (ExtendibleHash used as a map with an
injective std hash, for which first-match lookup is exact). -/
def alookup {κ α : Type} [DecidableEq κ] (k : κ) : List (κ × α) → Option α
  | [] => none
  | (k0, v) :: rest => if k0 = k then some v else alookup k rest

/-- Remove every entry with the given key, modelling
ExtendibleHash::Remove which drops all entries whose stored hash
matches. -/
def removeKey {κ α : Type} [DecidableEq κ] (k : κ) : List (κ × α) → List (κ × α)
  | [] => []
  | (k0, v) :: rest =>
    if k0 = k then removeKey k rest else (k0, v) :: removeKey k rest

/-! ## B+ tree leaf page operations (src/page/b_plus_tree_leaf_page.cpp)

A leaf entry array is modelled as the list of its first `size` slots;
values are Int, standing for the record ids. -/

/-- BPlusTreeLeafPage::Lookup: scan for the first entry whose key compares
equal to the probe and return its value. -/
def leafLookup (k : Int) : List (Int × Int) → Option Int
  | [] => none
  | (k0, v0) :: rest => if cmpInt k k0 = 0 then some v0 else leafLookup k rest

/-- BPlusTreeLeafPage::Insert: place the new pair before the first entry
whose key is strictly greater, else append at the end. -/
def leafInsertEntries (k v : Int) : List (Int × Int) → List (Int × Int)
  | [] => [(k, v)]
  | (k0, v0) :: rest =>
    if cmpInt k k0 < 0 then (k, v) :: (k0, v0) :: rest
    else (k0, v0) :: leafInsertEntries k v rest

/-- Scanning core of BPlusTreeLeafPage::KeyIndex: the source loop returns
the first index whose key compares EQUAL to the probe (the test is
comparator(array[i].first, key) == 0), and 0 when the scan falls through. -/
def keyIndexAux (k : Int) : List (Int × Int) → Nat → Nat
  | [], _ => 0
  | (k0, _) :: rest, i => if cmpInt k0 k = 0 then i else keyIndexAux k rest (i + 1)

/-- BPlusTreeLeafPage::KeyIndex as implemented. -/
def keyIndex (k : Int) (entries : List (Int × Int)) : Nat :=
  keyIndexAux k entries 0

/-- Modelled from the spec: key_index(k) is the smallest i with
array[i].key greater than or equal to k, and zero when no such index
exists. Stated for comparison with the implemented keyIndex. -/
def keyIndexPerSpecAux (k : Int) : List (Int × Int) → Nat → Nat
  | [], _ => 0
  | (k0, _) :: rest, i => if k ≤ k0 then i else keyIndexPerSpecAux k rest (i + 1)

/-- Modelled from the spec: entry point of the spec version of key_index. -/
def keyIndexPerSpec (k : Int) (entries : List (Int × Int)) : Nat :=
  keyIndexPerSpecAux k entries 0

/-! ## B+ tree page header (src/page/b_plus_tree_page.cpp) -/

/-- Common node header of BPlusTreePage: page type, parent id, max size.
Only the fields the claims touch are carried. -/
structure BPTPageHeader where
  is_leaf : Bool
  parent_page_id : Int
  max_size : Int
deriving DecidableEq

/-- BPlusTreePage::IsRootPage: the parent id is INVALID. -/
def isRootPage (n : BPTPageHeader) : Bool :=
  n.parent_page_id = INVALID_PAGE_ID

/-- BPlusTreePage::GetMinSize: 2 for a root page regardless of type and
max size, else (max_size + 1) / 2. -/
def getMinSize (n : BPTPageHeader) : Int :=
  if isRootPage n then 2 else (n.max_size + 1) / 2

/-- Deletion-repair trigger of BPlusTree::Remove: the repair path runs
exactly when the new leaf size is below GetMinSize. -/
def removeTriggersRepair (n : BPTPageHeader) (newSize : Int) : Bool :=
  newSize < getMinSize n

/-! ## B+ tree internal page operations
(src/page/b_plus_tree_internal_page.cpp)

The entry array is a list of (key, child page id) pairs. For the
array-indexed InsertNodeAfter the allocated array (capacity beyond the
logical size) is modelled explicitly together with the size counter. -/

/-- BPlusTreeInternalPage::ValueIndex: linear scan over the first `size`
values, -1 when absent. -/
def valueIndexAux (v : Int) : List (Int × Int) → Nat → Int
  | [], _ => -1
  | (_, v0) :: rest, i => if v0 = v then (i : Int) else valueIndexAux v rest (i + 1)

/-- BPlusTreeInternalPage::ValueIndex entry point; the list holds the
first `size` array slots. -/
def valueIndex (entries : List (Int × Int)) (v : Int) : Int :=
  valueIndexAux v entries 0

/-- BPlusTreeInternalPage::ValueAt. -/
def valueAt (entries : List (Int × Int)) (i : Nat) : Int :=
  (entries.getD i (0, INVALID_PAGE_ID)).2

/-- Sibling index chosen by BPlusTree::CoalesceOrRedistribute: the right
neighbour node_index + 1, or node_index - 1 when that is past the end. -/
def coalesceSiblingIndex (parentEntries : List (Int × Int)) (nodePid : Int) : Int :=
  let node_id := valueIndex parentEntries nodePid
  let sibling_id := node_id + 1
  if sibling_id ≥ (parentEntries.length : Int) then node_id - 1 else sibling_id

/-- The argument BPlusTree::CoalesceOrRedistribute passes to
BufferPoolManager::FetchPage: the sibling INDEX itself
(FetchPage(sibling_id) in the source), not the page id stored in the
parent entry. -/
def coalesceSiblingFetchArg (parentEntries : List (Int × Int)) (nodePid : Int) : Int :=
  coalesceSiblingIndex parentEntries nodePid

/-- The overwrite loop of BPlusTreeInternalPage::InsertNodeAfter: for j
ascending from i+2 while j < size, array[j] = array[j-1]; the count of
iterations is passed explicitly. -/
def copyForward : List (Int × Int) → Nat → Nat → List (Int × Int)
  | arr, _, 0 => arr
  | arr, j, n + 1 => copyForward (arr.set j (arr.getD (j - 1) (0, 0))) (j + 1) n

/-- BPlusTreeInternalPage::InsertNodeAfter on the allocated array `arr`
with logical size `size`: find the entry whose value equals oldV within
the first `size` slots, bump the size, run the ascending copy loop from
index i+2 up to the new size, then write the new pair at i+1. When oldV
is absent the node is unchanged. -/
def insertNodeAfter (arr : List (Int × Int)) (size : Nat) (oldV k v : Int) :
    List (Int × Int) × Nat :=
  match (arr.take size).findIdx? (fun p => p.2 = oldV) with
  | none => (arr, size)
  | some i =>
    let size2 := size + 1
    let arr1 := copyForward arr (i + 2) (size2 - (i + 2))
    (arr1.set (i + 1) (k, v), size2)

/-! ## Pin accounting of the insert split path (src/index/b_plus_tree.cpp)

The trace below follows the buffer pool calls the source makes during an
insert that splits a leaf whose parent already exists and does not itself
overflow: FindLeafPage fetches the leaf; Split news the sibling page and
latches it; InsertIntoParent (non-root branch, lines 209-231) fetches the
parent, inserts, then unpins the parent once and old_node TWICE, and
never unpins new_node; finally InsertIntoLeaf unpins the leaf. -/

/-- Pin counts of the three frames the operation touches. -/
structure PinCounts where
  leaf : Nat
  parent : Nat
  newNode : Nat
deriving DecidableEq

/-- BufferPoolManager::UnpinPage effect on a pin count: decrement only
when positive, else leave at zero (the call returns false). -/
def unpinPin (p : Nat) : Nat := if 0 < p then p - 1 else p

/-- Pin counts after an insert whose leaf split propagates into an
existing, non-overflowing parent, replaying the fetch/new/unpin calls of
the source in program order. -/
def insertSplitNonRootPinCounts : PinCounts :=
  let s0 : PinCounts := ⟨0, 0, 0⟩
  let s1 := { s0 with leaf := s0.leaf + 1 }
  let s2 := { s1 with newNode := s1.newNode + 1 }
  let s3 := { s2 with parent := s2.parent + 1 }
  let s4 := { s3 with parent := unpinPin s3.parent }
  let s5 := { s4 with leaf := unpinPin s4.leaf }
  let s6 := { s5 with leaf := unpinPin s5.leaf }
  { s6 with leaf := unpinPin s6.leaf }

/-! ## B+ tree insert, duplicate path (src/index/b_plus_tree.cpp)

The state carries the root page id and the leaf page that FindLeafPage
returns for the probed key; the split branch only needs the fresh page
ids, passed as arguments. -/

/-- Leaf page state: entries, forward sibling link, parent id, max size. -/
structure LeafPage where
  entries : List (Int × Int)
  next_page_id : Int
  parent_page_id : Int
  max_size : Int
deriving DecidableEq

/-- Header view of a leaf page, feeding BPlusTreePage::GetMinSize. -/
def leafHeader (l : LeafPage) : BPTPageHeader :=
  ⟨true, l.parent_page_id, l.max_size⟩

/-- Tree state relevant to one insert: the root page id and the leaf
reached by FindLeafPage for the probed key. -/
structure BPTState where
  root_page_id : Int
  leaf : LeafPage
deriving DecidableEq

/-- BPlusTreeLeafPage::Init max size: (PAGE_SIZE - 24) / entry size - 1. -/
def leafInitMaxSize (entrySize : Nat) : Nat :=
  (PAGE_SIZE - 24) / entrySize - 1

/-- BPlusTree::StartNewTree: new root leaf holding the single pair. -/
def startNewTree (k v newRootId : Int) (entrySize : Nat) : BPTState :=
  ⟨newRootId, ⟨[(k, v)], INVALID_PAGE_ID, INVALID_PAGE_ID, (leafInitMaxSize entrySize : Int)⟩⟩

/-- BPlusTree::InsertIntoLeaf: re-check membership with Lookup; a
duplicate returns false with no state change; otherwise insert, and when
the new size exceeds max size run MoveHalfTo (keep the first GetMinSize
entries, splice the new sibling id into the leaf list) and, for a root
leaf, install the new root id. -/
def insertIntoLeaf (t : BPTState) (k v newLeafId newRootId : Int) : Bool × BPTState :=
  match leafLookup k t.leaf.entries with
  | some _ => (false, t)
  | none =>
    let es := leafInsertEntries k v t.leaf.entries
    if (es.length : Int) > t.leaf.max_size then
      let ms := (getMinSize (leafHeader t.leaf)).toNat
      let wasRoot := t.leaf.parent_page_id = INVALID_PAGE_ID
      let leaf2 : LeafPage :=
        { entries := es.take ms
          next_page_id := newLeafId
          parent_page_id := if wasRoot then newRootId else t.leaf.parent_page_id
          max_size := t.leaf.max_size }
      (true, { root_page_id := if wasRoot then newRootId else t.root_page_id, leaf := leaf2 })
    else
      (true, { t with leaf := { t.leaf with entries := es } })

/-- BPlusTree::Insert: an empty tree starts a new root leaf, otherwise
the pair goes through InsertIntoLeaf. -/
def bptInsert (t : BPTState) (k v newLeafId newRootId : Int) (entrySize : Nat) :
    Bool × BPTState :=
  if t.root_page_id = INVALID_PAGE_ID then (true, startNewTree k v newRootId entrySize)
  else insertIntoLeaf t k v newLeafId newRootId

/-! ## LRU replacer (src/buffer/lru_replacer.cpp)

The replacer keeps a std set of (timestamp, hash key) pairs in ascending
order and a hash map from hash key to (timestamp, value); the set is
modelled as a sorted list, the map as an association list (the inner
ExtendibleHash is keyed by an injective std hash, for which an
association list is exact). The hash function is a parameter, standing
for std::hash; theorems instantiate it with the identity, which is the
libstdc++ std::hash on integral types. -/

/-- Replacer state: the ordered (timestamp, hash key) set, the hash map
and the timestamp counter. -/
structure LRUState (T : Type) where
  lru : List (Nat × Nat)
  map : List (Nat × (Nat × T))
  time : Nat
deriving DecidableEq

/-- Strict ordering of std pair over (Nat, Nat). -/
def pairLtb (a b : Nat × Nat) : Bool :=
  a.1 < b.1 || (a.1 = b.1 && a.2 < b.2)

/-- Ordered-set insertion of std set: place the element before the first
strictly greater one; inserting a present element changes nothing. -/
def sortedIns (x : Nat × Nat) : List (Nat × Nat) → List (Nat × Nat)
  | [] => [x]
  | y :: rest =>
    if pairLtb x y then x :: y :: rest
    else if x = y then y :: rest
    else y :: sortedIns x rest

/-- Fresh replacer, LRUReplacer constructor. -/
def emptyLRU {T : Type} : LRUState T := ⟨[], [], 0⟩

/-- LRUReplacer::Insert: bump the counter, drop any prior instance of the
hash key from both structures, then record (counter, hash) in the set
and hash -> (counter, value) in the map. -/
def lruInsertOp {T : Type} (hash : T → Nat) (v : T) (s : LRUState T) : LRUState T :=
  let t := s.time + 1
  let h := hash v
  match alookup h s.map with
  | some obj =>
    let lru1 := s.lru.erase (obj.1, h)
    let map1 := removeKey h s.map
    { lru := sortedIns (t, h) lru1, map := (h, (t, v)) :: map1, time := t }
  | none =>
    { lru := sortedIns (t, h) s.lru, map := (h, (t, v)) :: s.map, time := t }

/-- LRUReplacer::Victim: false on an empty set; else pop the minimum,
look its hash key up in the map (removing it when found; when absent the
source logs an error and hands back a default-constructed value). -/
def lruVictimOp {T : Type} [Inhabited T] (s : LRUState T) : Option T × LRUState T :=
  match s.lru with
  | [] => (none, s)
  | victim :: rest =>
    match alookup victim.2 s.map with
    | some obj => (some obj.2, { s with lru := rest, map := removeKey victim.2 s.map })
    | none => (some default, { s with lru := rest })

/-- LRUReplacer::Erase: remove the value when present. -/
def lruEraseOp {T : Type} (hash : T → Nat) (v : T) (s : LRUState T) : Bool × LRUState T :=
  let h := hash v
  match alookup h s.map with
  | some obj => (true, { s with map := removeKey h s.map, lru := s.lru.erase (obj.1, h) })
  | none => (false, s)

/-- LRUReplacer::Size. -/
def lruSize {T : Type} (s : LRUState T) : Nat := s.lru.length

/-- Fold a list of insertions through the replacer. -/
def insertAll {T : Type} (hash : T → Nat) (vs : List T) (s : LRUState T) : LRUState T :=
  vs.foldl (fun acc v => lruInsertOp hash v acc) s

/-- Collect the results of n consecutive Victim calls. -/
def victimsN {T : Type} [Inhabited T] : Nat → LRUState T → List (Option T)
  | 0, _ => []
  | n + 1, s =>
    let r := lruVictimOp s
    r.1 :: victimsN n r.2

/-! ## Disk manager (src/disk/disk_manager.cpp)

The database file is a byte list; a page read at an offset at or past the
file length takes the error branch of the source, which logs and leaves
the caller buffer untouched; otherwise the bytes are read and the
remainder beyond the actual read count is zero-filled. -/

/-- Number of bytes the stream read returns for a page, gcount of the
source: the full page, or whatever remains of the file. -/
def readCount (fileLen offset : Nat) : Nat :=
  min PAGE_SIZE (fileLen - offset)

/-- DiskManager::ReadPage on a file modelled as a byte list: beyond the
end of the file nothing is written into the buffer; inside the file the
page bytes are copied and the remainder of the buffer is zero-filled. -/
def diskReadPage (file : List Nat) (pid : Nat) (buf : List Nat) : List Nat :=
  let offset := pid * PAGE_SIZE
  if file.length ≤ offset then buf
  else
    let chunk := (file.drop offset).take PAGE_SIZE
    chunk ++ List.replicate (PAGE_SIZE - chunk.length) 0

/-! ## Buffer pool manager (src/buffer/buffer_pool_manager.cpp)

Page objects live on a heap addressed by references (modelling Page
pointers); the page table maps page ids to references, the free list
holds references, the replacer is the LRU model over references hashed
by the identity (std::hash on a pointer value). Page byte contents are
not carried: the claims here concern the page table, the frame identity
and the metadata. -/

/-- Page metadata, the fields of class Page the pool touches. -/
structure PageObj where
  page_id : Int
  pin_count : Nat
  is_dirty : Bool
deriving DecidableEq, Inhabited

/-- Modelled from the spec: page.h is not under src; spec section 3 gives
a fresh frame page id INVALID, pin count zero, dirty flag clear, which is
what a default-constructed Page holds. -/
def newPageDefault : PageObj := ⟨INVALID_PAGE_ID, 0, false⟩

/-- Buffer pool manager state. -/
structure BPMState where
  heap : List (Nat × PageObj)
  nextRef : Nat
  page_table : List (Int × Nat)
  replacer : LRUState Nat
  free_list : List Nat
deriving DecidableEq

/-- Update the page object at one heap reference. -/
def heapModify (r : Nat) (f : PageObj → PageObj) (h : List (Nat × PageObj)) :
    List (Nat × PageObj) :=
  h.map (fun p => if p.1 = r then (p.1, f p.2) else p)

/-- BufferPoolManager::FlushPage: a no-op on INVALID or a non-resident
id; on a resident page the bytes go to disk (not carried here) and the
dirty flag is cleared. -/
def flushPage (s : BPMState) (pid : Int) : BPMState :=
  if pid = INVALID_PAGE_ID then s
  else
    match alookup pid s.page_table with
    | some r => { s with heap := heapModify r (fun p => { p with is_dirty := false }) s.heap }
    | none => s

/-- Miss path of BufferPoolManager::FetchPage once a victim reference is
in hand: flush the victim when dirty, remove the REQUESTED id from the
page table (page_table_->Remove(page_id) in the source), then allocate a
brand-new Page object with the requested id and pin count one and return
it; the source neither reuses the victim frame nor inserts the new
mapping into the page table. -/
def fetchMiss (s : BPMState) (pid : Int) (victim : Nat) : Option Nat × BPMState :=
  let vic := (alookup victim s.heap).getD newPageDefault
  let s1 := if vic.is_dirty then flushPage s vic.page_id else s
  let s2 := { s1 with page_table := removeKey pid s1.page_table }
  let newP : PageObj := { newPageDefault with page_id := pid, pin_count := newPageDefault.pin_count + 1 }
  (some s2.nextRef, { s2 with heap := (s2.nextRef, newP) :: s2.heap, nextRef := s2.nextRef + 1 })

/-- BufferPoolManager::FetchPage: a hit bumps the pin count; a miss takes
the back of the free list, else a replacer victim, else fails. -/
def fetchPage (s : BPMState) (pid : Int) : Option Nat × BPMState :=
  match alookup pid s.page_table with
  | some r =>
    (some r, { s with heap := heapModify r (fun p => { p with pin_count := p.pin_count + 1 }) s.heap })
  | none =>
    match s.free_list.getLast? with
    | some r => fetchMiss { s with free_list := s.free_list.dropLast } pid r
    | none =>
      match lruVictimOp s.replacer with
      | (none, _) => (none, s)
      | (some r, rep) => fetchMiss { s with replacer := rep } pid r

/-! ## Extendible hash (src/hash/extendible_hash.cpp)

The bucket array is a list of optional buckets, a resize filling the new
half with null as the source vector resize does; the global depth and the
per-bucket local depths follow the source. Keys are represented by their
std hash values, as the source stores and compares hashed keys; the
identity instantiation matches the libstdc++ std::hash on integers. The
source split recursion is unbounded, so the model takes a fuel bound on
recursion depth; every theorem holds for every fuel. -/

/-- One bucket: local depth and the stored (hash, value) entries. -/
structure EHBucket (V : Type) where
  local_depth : Nat
  elements : List (Nat × V)
deriving DecidableEq

/-- Extendible hash state: the bucket array, the global depth and the
bucket capacity. -/
structure EHState (V : Type) where
  buckets : List (Option (EHBucket V))
  global_depth : Nat
  bucket_size : Nat
deriving DecidableEq

/-- ExtendibleHash constructor: one empty bucket of local depth zero,
global depth zero. -/
def ehInit (V : Type) (size : Nat) : EHState V :=
  ⟨[some ⟨0, []⟩], 0, size⟩

/-- getFirstNBits: mask to the low n bits. -/
def getFirstNBits (value n : Nat) : Nat :=
  value % 2 ^ n

/-- The lookup walk of ExtendibleHash::HashKey: start at the global-depth
index and drop low bits until the slot is non-null (slot zero is always
non-null in reachable states, so the walk ends). -/
def findBucketIdx {V : Type} (buckets : List (Option (EHBucket V))) (h : Nat) : Nat → Nat
  | 0 => 0
  | n + 1 =>
    let id := getFirstNBits h (n + 1)
    match buckets.getD id none with
    | some _ => id
    | none => findBucketIdx buckets h n

/-- ExtendibleHash::HashKey on a state. -/
def hashKeyIdx {V : Type} (s : EHState V) (h : Nat) : Nat :=
  findBucketIdx s.buckets h s.global_depth

/-- Apply a function to the bucket at an index when it is non-null. -/
def bucketsModify {V : Type} (bs : List (Option (EHBucket V))) (i : Nat)
    (f : EHBucket V → EHBucket V) : List (Option (EHBucket V)) :=
  match bs.getD i none with
  | some b => bs.set i (some (f b))
  | none => bs

/-- Overflow test of a bucket slot against the capacity. -/
def bucketOverflows {V : Type} (bs : List (Option (EHBucket V))) (i sz : Nat) : Bool :=
  match bs.getD i none with
  | some b => b.elements.length > sz
  | none => false

/-- One iteration of the redistribution loop of ExtendibleHash::split:
push the entry onto the bucket selected by the low depth2 bits of its
hash. -/
def ehRedisStep {V : Type} (depth2 : Nat) (acc : EHState V) (e : Nat × V) : EHState V :=
  { acc with buckets := bucketsModify acc.buckets (getFirstNBits e.1 depth2) (fun bb => { bb with elements := bb.elements ++ [e] }) }

/-- Non-recursive body of ExtendibleHash::split for the bucket b found at
index id: when the local depth equals the global depth, double the array
(new slots null); create the new bucket at id with the bit 2^depth set,
bump both local depths and the global depth, clear the old bucket and
redistribute its entries by their low depth+1 bits. -/
def ehSplitCore {V : Type} (s : EHState V) (id : Nat) (b : EHBucket V) : EHState V :=
  let depth := b.local_depth
  let total := b.elements
  let s1 :=
    if depth = s.global_depth
    then { s with buckets := s.buckets ++ List.replicate s.buckets.length none }
    else s
  let new_id := id ||| (1 <<< depth)
  let s2 := { s1 with buckets := s1.buckets.set new_id (some ⟨0, []⟩) }
  let depth2 := depth + 1
  let s3 := { s2 with global_depth := max s2.global_depth depth2 }
  let s4 := { s3 with buckets := bucketsModify s3.buckets id (fun bb => { bb with local_depth := depth2 }) }
  let s5 := { s4 with buckets := bucketsModify s4.buckets new_id (fun bb => { bb with local_depth := depth2 }) }
  let s6 := { s5 with buckets := bucketsModify s5.buckets id (fun bb => { bb with elements := [] }) }
  total.foldl (ehRedisStep depth2) s6

/-- ExtendibleHash::split with a fuel bound on the recursion depth: run
the core on the bucket at id, then recurse on either half while it still
overflows. -/
def ehSplit {V : Type} : Nat → EHState V → Nat → EHState V
  | 0, s, _ => s
  | fuel + 1, s, id =>
    match s.buckets.getD id none with
    | none => s
    | some b =>
      let s7 := ehSplitCore s id b
      let new_id := id ||| (1 <<< b.local_depth)
      let s8 := if bucketOverflows s7.buckets id s7.bucket_size then ehSplit fuel s7 id else s7
      if bucketOverflows s8.buckets new_id s8.bucket_size then ehSplit fuel s8 new_id else s8

/-- ExtendibleHash::Insert: append the (hash, value) entry to the located
bucket and split it when it overflows. -/
def ehInsert {V : Type} (fuel h : Nat) (v : V) (s : EHState V) : EHState V :=
  let id := hashKeyIdx s h
  let s1 := { s with buckets := bucketsModify s.buckets id (fun b => { b with elements := b.elements ++ [(h, v)] }) }
  if bucketOverflows s1.buckets id s1.bucket_size then ehSplit fuel s1 id else s1

/-- ExtendibleHash::Remove: rebuild the located bucket without the
entries whose stored hash matches. -/
def ehRemove {V : Type} (h : Nat) (s : EHState V) : EHState V :=
  let id := hashKeyIdx s h
  { s with buckets := bucketsModify s.buckets id (fun b => { b with elements := b.elements.filter (fun e => e.1 ≠ h) }) }

/-- One public operation of the table. -/
inductive EHOp (V : Type) where
  | ins (fuel h : Nat) (v : V)
  | del (h : Nat)
deriving DecidableEq

/-- Apply one operation. -/
def ehStep {V : Type} (s : EHState V) : EHOp V → EHState V
  | .ins fuel h v => ehInsert fuel h v s
  | .del h => ehRemove h s

/-- Run an operation sequence from a fresh table. -/
def ehRun {V : Type} (ops : List (EHOp V)) (sz : Nat) : EHState V :=
  ops.foldl ehStep (ehInit V sz)

/-! ## Claim theorems -/

/-- C1: evaluation of the code at the failing input. A pool holding page 3
unpinned in frame 0 (so the replacer yields it) serves fetch(5): the
returned reference is a fresh object, the mapping 5 -> frame is never
inserted so a find(5) on the page table fails afterwards, and the victim
old id 3 is still in the page table; this contradicts the claim that the
victim old id is removed, the new mapping inserted and the frame reused. -/
theorem fetchPage_miss_drops_mapping_eval :
    (fetchPage ⟨[(0, ⟨3, 0, false⟩)], 1, [(3, 0)], lruInsertOp id 0 emptyLRU, []⟩ 5).1 = some 1
    ∧ alookup (5 : Int) (fetchPage ⟨[(0, ⟨3, 0, false⟩)], 1, [(3, 0)], lruInsertOp id 0 emptyLRU, []⟩ 5).2.page_table = none
    ∧ alookup (3 : Int) (fetchPage ⟨[(0, ⟨3, 0, false⟩)], 1, [(3, 0)], lruInsertOp id 0 emptyLRU, []⟩ 5).2.page_table = some 0
    ∧ alookup 1 (fetchPage ⟨[(0, ⟨3, 0, false⟩)], 1, [(3, 0)], lruInsertOp id 0 emptyLRU, []⟩ 5).2.heap = some ⟨5, 1, false⟩ := by
  decide

/-- C2: evaluation of the pin bookkeeping on an insert that splits a leaf
under an existing non-overflowing parent. The sibling page allocated in
Split keeps pin count one after the operation returns (old_node is
unpinned twice instead), so the pinned-frame count is not zero. -/
theorem insertIntoParent_pin_leak_eval :
    insertSplitNonRootPinCounts = ⟨0, 0, 1⟩
    ∧ insertSplitNonRootPinCounts.newNode ≠ 0 := by
  decide

/-- C3: evaluation of the sibling fetch in CoalesceOrRedistribute. For a
parent whose entries are [(bot, 10), (5, 7)] and the repaired node page
10, the chosen sibling entry is the right one at index 1 as the claim
says, but the argument handed to FetchPage is the index 1 itself, not the
page id 7 stored in that parent entry. -/
theorem coalesce_sibling_fetch_eval :
    coalesceSiblingIndex [(0, 10), (5, 7)] 10 = 1
    ∧ coalesceSiblingFetchArg [(0, 10), (5, 7)] 10 = 1
    ∧ valueAt [(0, 10), (5, 7)] 1 = 7
    ∧ coalesceSiblingFetchArg [(0, 10), (5, 7)] 10 ≠ valueAt [(0, 10), (5, 7)] 1 := by
  decide

/-- C7: evaluation of InsertNodeAfter on a node of size three inserting
after the first entry. The ascending copy loop duplicates the entry that
followed the insertion point and destroys the later entry (9, 12)
instead of shifting the tail right by one. -/
theorem insertNodeAfter_overwrite_eval :
    insertNodeAfter [(0, 10), (5, 11), (9, 12), (0, 0)] 3 10 3 20 = ([(0, 10), (3, 20), (5, 11), (5, 11)], 4)
    ∧ (insertNodeAfter [(0, 10), (5, 11), (9, 12), (0, 0)] 3 10 3 20).1.take 4 ≠ [(0, 10), (3, 20), (5, 11), (9, 12)]
    ∧ (9, 12) ∉ (insertNodeAfter [(0, 10), (5, 11), (9, 12), (0, 0)] 3 10 3 20).1.take 4 := by
  decide

/-- C8: evaluation of KeyIndex on a leaf with ascending keys [2, 5] and
probe 3: the implementation scans for an exactly equal key and falls
through to 0, while the documented behaviour (smallest index with key
greater than or equal to the probe) gives 1, since 2 < 3 and 3 is at
most 5. -/
theorem keyIndex_equality_only_eval :
    keyIndex 3 [(2, 0), (5, 0)] = 0
    ∧ keyIndexPerSpec 3 [(2, 0), (5, 0)] = 1
    ∧ (2 : Int) < 3 ∧ (3 : Int) ≤ 5 := by
  decide

/-- C10: every node whose parent page id is INVALID has GetMinSize 2,
whatever its type and max size, and so the Remove trigger
(new size below GetMinSize) fires on a root leaf of size one, not only on
an empty one, and stays quiet at size two. -/
theorem getMinSize_root_two (n : BPTPageHeader) (h : n.parent_page_id = INVALID_PAGE_ID) :
    getMinSize n = 2
    ∧ removeTriggersRepair n 1 = true
    ∧ removeTriggersRepair n 0 = true
    ∧ removeTriggersRepair n 2 = false := by
  simp [getMinSize, isRootPage, removeTriggersRepair, h]

/-- C10 witness: a root leaf header with max size 100. -/
theorem getMinSize_root_two_witness :
    (⟨true, -1, 100⟩ : BPTPageHeader).parent_page_id = INVALID_PAGE_ID
    ∧ getMinSize ⟨true, -1, 100⟩ = 2
    ∧ removeTriggersRepair ⟨true, -1, 100⟩ 1 = true :=
  ⟨by decide, (getMinSize_root_two ⟨true, -1, 100⟩ (by decide)).1,
    (getMinSize_root_two ⟨true, -1, 100⟩ (by decide)).2.1⟩

/-- C5: inserting a key already present in a non-empty tree returns false
and leaves the whole state unchanged: the leaf entries, the sibling link,
the parent id and the root page id are exactly those before the call. -/
theorem insert_duplicate_no_change (t : BPTState) (k v nl nr : Int) (es : Nat)
    (hroot : t.root_page_id ≠ INVALID_PAGE_ID)
    (hdup : (leafLookup k t.leaf.entries).isSome = true) :
    bptInsert t k v nl nr es = (false, t) := by
  rw [bptInsert, if_neg hroot]
  cases hlk : leafLookup k t.leaf.entries with
  | none => rw [hlk] at hdup; simp at hdup
  | some w => simp [insertIntoLeaf, hlk]

/-- C5 witness: duplicate insert of key 5 into a one-leaf tree. -/
theorem insert_duplicate_no_change_witness :
    ((⟨1, ⟨[(5, 50)], -1, -1, 3⟩⟩ : BPTState).root_page_id ≠ INVALID_PAGE_ID)
    ∧ (leafLookup 5 [(5, 50)]).isSome = true
    ∧ bptInsert ⟨1, ⟨[(5, 50)], -1, -1, 3⟩⟩ 5 99 7 8 16 = (false, ⟨1, ⟨[(5, 50)], -1, -1, 3⟩⟩) :=
  ⟨by decide, by decide,
    insert_duplicate_no_change ⟨1, ⟨[(5, 50)], -1, -1, 3⟩⟩ 5 99 7 8 16 (by decide) (by decide)⟩

/-- C9 counterexample: reading page 0 of an empty file leaves the caller
buffer exactly as it was, so a buffer of ones is not filled with zero
bytes as the claim states. -/
theorem readPage_beyond_eof_cex :
    diskReadPage [] 0 (List.replicate PAGE_SIZE 1) = List.replicate PAGE_SIZE 1
    ∧ List.replicate PAGE_SIZE 1 ≠ List.replicate PAGE_SIZE (0 : Nat) := by
  refine ⟨rfl, ?_⟩
  intro h
  have := congrArg List.head? h
  simp [List.head?_replicate, PAGE_SIZE] at this

/-- C9 amended: a read whose offset is at or past the end of the file is
not an error and leaves the buffer untouched; a read inside the file
yields a full page whose first readCount bytes are the file bytes and
whose remainder is zero-filled. -/
theorem readPage_amended (file : List Nat) (pid : Nat) (buf : List Nat) :
    (file.length ≤ pid * PAGE_SIZE → diskReadPage file pid buf = buf)
    ∧ (pid * PAGE_SIZE < file.length →
        (diskReadPage file pid buf).length = PAGE_SIZE
        ∧ (∀ j, j < readCount file.length (pid * PAGE_SIZE) →
            (diskReadPage file pid buf).get? j = file.get? (pid * PAGE_SIZE + j))
        ∧ (∀ j, readCount file.length (pid * PAGE_SIZE) ≤ j → j < PAGE_SIZE →
            (diskReadPage file pid buf).get? j = some 0)) := by
  constructor
  · intro h
    simp [diskReadPage, h]
  · intro h
    have hnot : ¬ file.length ≤ pid * PAGE_SIZE := not_le.mpr h
    have hchunk : ((file.drop (pid * PAGE_SIZE)).take PAGE_SIZE).length
        = readCount file.length (pid * PAGE_SIZE) := by
      simp [List.length_take, List.length_drop, readCount]
    have hle : readCount file.length (pid * PAGE_SIZE) ≤ PAGE_SIZE := min_le_left _ _
    refine ⟨?_, ?_, ?_⟩
    · simp only [diskReadPage, if_neg hnot, List.length_append, List.length_replicate, hchunk]
      omega
    · intro j hj
      simp only [diskReadPage, if_neg hnot]
      rw [List.get?_append (by rw [hchunk]; exact hj)]
      rw [List.get?_take (lt_of_lt_of_le hj hle), List.get?_drop]
    · intro j hj1 hj2
      simp only [diskReadPage, if_neg hnot]
      rw [List.get?_append_right (by rw [hchunk]; exact hj1)]
      have hlt : j - ((file.drop (pid * PAGE_SIZE)).take PAGE_SIZE).length
          < PAGE_SIZE - ((file.drop (pid * PAGE_SIZE)).take PAGE_SIZE).length := by
        rw [hchunk] at *
        omega
      rw [List.get?_eq_getElem?, List.getElem?_replicate_of_lt hlt]

/-- C9 witness: the beyond-end branch on an empty file with a nonzero
buffer, and the zero-fill of the remainder for a one-byte file. -/
theorem readPage_amended_witness :
    (List.length ([] : List Nat) ≤ 0 * PAGE_SIZE)
    ∧ diskReadPage [] 0 [9] = [9]
    ∧ 0 * PAGE_SIZE < List.length [7]
    ∧ (diskReadPage [7] 0 []).get? 0 = some 7
    ∧ (diskReadPage [7] 0 []).get? 1 = some 0 :=
  ⟨by decide, (readPage_amended [] 0 [9]).1 (by decide), by decide,
    ((readPage_amended [7] 0 []).2 (by decide)).2.1 0 (by decide),
    ((readPage_amended [7] 0 []).2 (by decide)).2.2 1 (by decide) (by decide)⟩

/-! ## LRU replacer: proofs

Auxiliary facts about association lists and the sorted set, then the
replacer invariant and the LRU law. The theorems instantiate the hash
parameter with the identity on Nat, the libstdc++ std::hash on integral
values, under which distinct values have distinct hash keys. -/

theorem alookup_mem {κ α : Type} [DecidableEq κ] {k : κ} {m : List (κ × α)} {v : α}
    (h : alookup k m = some v) : (k, v) ∈ m := by
  induction m with
  | nil => simp [alookup] at h
  | cons q rest ih =>
    rcases q with ⟨k0, v0⟩
    by_cases hk : k0 = k
    · subst hk
      simp [alookup] at h
      simp [h]
    · rw [alookup, if_neg hk] at h
      exact List.mem_cons_of_mem _ (ih h)

theorem alookup_cons_ne {κ α : Type} [DecidableEq κ] {k k0 : κ} (v0 : α)
    (m : List (κ × α)) (h : k0 ≠ k) : alookup k ((k0, v0) :: m) = alookup k m := by
  rw [alookup, if_neg h]

theorem alookup_removeKey_ne {κ α : Type} [DecidableEq κ] {k k2 : κ}
    (m : List (κ × α)) (h : k ≠ k2) : alookup k (removeKey k2 m) = alookup k m := by
  induction m with
  | nil => rfl
  | cons q rest ih =>
    rcases q with ⟨k0, v0⟩
    by_cases hk : k0 = k2
    · have hne : k0 ≠ k := by
        intro hk0
        rw [hk0] at hk
        exact h hk
      rw [removeKey, if_pos hk, ih, alookup_cons_ne v0 rest hne]
    · rw [removeKey, if_neg hk]
      by_cases hk0 : k0 = k
      · subst hk0
        simp [alookup, ih]
      · rw [alookup_cons_ne v0 _ hk0, alookup_cons_ne v0 rest hk0]
        exact ih

theorem mem_removeKey {κ α : Type} [DecidableEq κ] {q : κ × α} {k : κ}
    {m : List (κ × α)} (h : q ∈ removeKey k m) : q ∈ m ∧ q.1 ≠ k := by
  induction m with
  | nil => simp [removeKey] at h
  | cons p rest ih =>
    rcases p with ⟨k0, v0⟩
    by_cases hk : k0 = k
    · rw [removeKey, if_pos hk] at h
      exact ⟨List.mem_cons_of_mem _ (ih h).1, (ih h).2⟩
    · rw [removeKey, if_neg hk] at h
      rcases List.mem_cons.mp h with he | ht
      · exact ⟨he ▸ List.mem_cons_self _ _, by rw [he]; exact hk⟩
      · exact ⟨List.mem_cons_of_mem _ (ih ht).1, (ih ht).2⟩

theorem sortedIns_append {x : Nat × Nat} {l : List (Nat × Nat)}
    (h : ∀ y ∈ l, y.1 < x.1) : sortedIns x l = l ++ [x] := by
  induction l with
  | nil => rfl
  | cons y rest ih =>
    have hy : y.1 < x.1 := h y (List.mem_cons_self _ _)
    have hlt : ¬ pairLtb x y = true := by
      simp only [pairLtb, Bool.or_eq_true, Bool.and_eq_true, decide_eq_true_eq]
      omega
    have hne : x ≠ y := by
      intro he
      rw [he] at hy
      exact lt_irrefl _ hy
    simp only [sortedIns, if_neg hlt, if_neg hne, List.cons_append, List.cons.injEq, true_and]
    exact ih (fun z hz => h z (List.mem_cons_of_mem _ hz))

theorem nodup_snd_mem_eq {l : List (Nat × Nat)} (hnd : (l.map Prod.snd).Nodup)
    {p q : Nat × Nat} (hp : p ∈ l) (hq : q ∈ l) (h2 : p.2 = q.2) : p = q := by
  induction l with
  | nil => simp at hp
  | cons y rest ih =>
    rw [List.map_cons, List.nodup_cons] at hnd
    rcases List.mem_cons.mp hp with hpe | hpt <;> rcases List.mem_cons.mp hq with hqe | hqt
    · rw [hpe, hqe]
    · exact absurd (List.mem_map_of_mem Prod.snd hqt) (by rw [← h2, hpe]; exact hnd.1)
    · exact absurd (List.mem_map_of_mem Prod.snd hpt) (by rw [h2, hqe]; exact hnd.1)
    · exact ih hnd.2 hpt hqt

theorem erase_map_snd {l : List (Nat × Nat)} {a b : Nat}
    (hnd : (l.map Prod.snd).Nodup) (hmem : (a, b) ∈ l) :
    (l.erase (a, b)).map Prod.snd = (l.map Prod.snd).erase b := by
  induction l with
  | nil => simp at hmem
  | cons y rest ih =>
    rw [List.map_cons, List.nodup_cons] at hnd
    by_cases hy : y = (a, b)
    · subst hy
      rw [List.erase_cons_head, List.map_cons, List.erase_cons_head]
    · have hmt : (a, b) ∈ rest := by
        rcases List.mem_cons.mp hmem with he | ht
        · exact absurd he.symm hy
        · exact ht
      have hsnd : y.2 ≠ b := by
        intro he
        exact hnd.1 (he ▸ List.mem_map_of_mem Prod.snd hmt)
      have hb1 : ¬ (y == (a, b)) = true := by simpa using hy
      have hb2 : ¬ (y.2 == b) = true := by simpa using hsnd
      rw [List.map_cons, List.erase_cons_tail hb1, List.erase_cons_tail hb2,
        List.map_cons, ih hnd.2 hmt]

/-- Replacer invariant at the identity hash: timestamps are bounded by
the counter, the set holds pairwise distinct hash keys, each set entry is
backed by the map with the same timestamp and (identity-hashed) value,
and each map entry is backed by the set. -/
structure WFid (s : LRUState Nat) : Prop where
  bound : ∀ e ∈ s.lru, e.1 ≤ s.time
  nodup : (s.lru.map Prod.snd).Nodup
  look : ∀ e ∈ s.lru, alookup e.2 s.map = some (e.1, e.2)
  back : ∀ q ∈ s.map, (q.2.1, q.1) ∈ s.lru

theorem wfid_empty : WFid (emptyLRU : LRUState Nat) := by
  refine ⟨?_, ?_, ?_, ?_⟩ <;> simp [emptyLRU]

/-- A well-formed replacer serves its whole set in list order, each
Victim call returning the stored value of the head entry. -/
theorem victims_wf_aux : ∀ (l : List (Nat × Nat)) (m : List (Nat × (Nat × Nat))) (tm : Nat),
    WFid ⟨l, m, tm⟩ → victimsN l.length ⟨l, m, tm⟩ = l.map (fun e => some e.2) := by
  intro l
  induction l with
  | nil => intro m tm _; rfl
  | cons e rest ih =>
    intro m tm hwf
    have hlook : alookup e.2 m = some (e.1, e.2) := hwf.look e (List.mem_cons_self _ _)
    have hnd := hwf.nodup
    rw [List.map_cons, List.nodup_cons] at hnd
    have hstep : victimsN (e :: rest).length ⟨e :: rest, m, tm⟩
        = some e.2 :: victimsN rest.length ⟨rest, removeKey e.2 m, tm⟩ := by
      simp only [List.length_cons, victimsN, lruVictimOp, hlook]
    rw [hstep, List.map_cons]
    refine congrArg _ (ih (removeKey e.2 m) tm ⟨?_, hnd.2, ?_, ?_⟩)
    · intro e2 he2
      exact hwf.bound e2 (List.mem_cons_of_mem _ he2)
    · intro e2 he2
      have hne : e2.2 ≠ e.2 := by
        intro hee
        exact hnd.1 (hee ▸ List.mem_map_of_mem Prod.snd he2)
      rw [alookup_removeKey_ne _ hne]
      exact hwf.look e2 (List.mem_cons_of_mem _ he2)
    · intro q hq
      have hq2 := mem_removeKey hq
      have := hwf.back q hq2.1
      rcases List.mem_cons.mp this with he | ht
      · exact absurd (congrArg Prod.snd he) hq2.2
      · exact ht

/-- State-level form of the previous lemma. -/
theorem victims_wf (s : LRUState Nat) (hwf : WFid s) :
    victimsN s.lru.length s = s.lru.map (fun e => some e.2) := by
  obtain ⟨l, m, tm⟩ := s
  exact victims_wf_aux l m tm hwf

/-- Inserting a value whose hash key is fresh appends it at the end of
the set and preserves the invariant. -/
theorem lruInsert_fresh (s : LRUState Nat) (v : Nat) (hwf : WFid s)
    (hfresh : v ∉ s.lru.map Prod.snd) :
    WFid (lruInsertOp id v s)
    ∧ (lruInsertOp id v s).lru = s.lru ++ [(s.time + 1, v)]
    ∧ (lruInsertOp id v s).map = (v, (s.time + 1, v)) :: s.map
    ∧ (lruInsertOp id v s).time = s.time + 1 := by
  have hnone : alookup v s.map = none := by
    cases hlk : alookup v s.map with
    | none => rfl
    | some q =>
      exact absurd (List.mem_map_of_mem Prod.snd (hwf.back _ (alookup_mem hlk))) hfresh
  have happ : sortedIns (s.time + 1, v) s.lru = s.lru ++ [(s.time + 1, v)] :=
    sortedIns_append (fun y hy => Nat.lt_succ_of_le (hwf.bound y hy))
  have hs1 : lruInsertOp id v s
      = ⟨s.lru ++ [(s.time + 1, v)], (v, (s.time + 1, v)) :: s.map, s.time + 1⟩ := by
    simp only [lruInsertOp, id_eq, hnone, happ]
  refine ⟨?_, by rw [hs1], by rw [hs1], by rw [hs1]⟩
  rw [hs1]
  refine ⟨?_, ?_, ?_, ?_⟩
  · intro e he
    rcases List.mem_append.mp he with h1 | h1
    · exact Nat.le_succ_of_le (hwf.bound e h1)
    · simp at h1
      subst h1
      exact Nat.le_refl _
  · rw [List.map_append]
    refine List.Nodup.append hwf.nodup (List.nodup_singleton v) ?_
    intro a ha hb
    rw [List.mem_singleton.mp hb] at ha
    exact hfresh ha
  · intro e he
    rcases List.mem_append.mp he with h1 | h1
    · have hne : e.2 ≠ v := fun hee => hfresh (hee ▸ List.mem_map_of_mem Prod.snd h1)
      rw [alookup_cons_ne _ _ (fun hee => hne hee.symm)]
      exact hwf.look e h1
    · simp at h1
      rw [h1, alookup, if_pos rfl]
  · intro q hq
    rcases List.mem_cons.mp hq with h1 | h1
    · rw [h1]
      exact List.mem_append_right _ (by simp)
    · exact List.mem_append_left _ (hwf.back q h1)

/-- Folding a nodup list of fresh values through Insert keeps the
invariant and appends the values, in order, to the hash-key view of the
set. -/
theorem insertAll_fresh : ∀ (vs : List Nat) (s : LRUState Nat), WFid s → vs.Nodup →
    (∀ v ∈ vs, v ∉ s.lru.map Prod.snd) →
    WFid (insertAll id vs s)
    ∧ (insertAll id vs s).lru.map Prod.snd = s.lru.map Prod.snd ++ vs := by
  intro vs
  induction vs with
  | nil => intro s hwf _ _; exact ⟨hwf, by simp [insertAll]⟩
  | cons v vs ih =>
    intro s hwf hnd hfresh
    rw [List.nodup_cons] at hnd
    obtain ⟨hwf1, hlru1, _, _⟩ :=
      lruInsert_fresh s v hwf (hfresh v (List.mem_cons_self _ _))
    have hstep : insertAll id (v :: vs) s = insertAll id vs (lruInsertOp id v s) := rfl
    have hfresh1 : ∀ w ∈ vs, w ∉ (lruInsertOp id v s).lru.map Prod.snd := by
      intro w hw hmem
      rw [hlru1, List.map_append, List.mem_append] at hmem
      rcases hmem with h1 | h1
      · exact hfresh w (List.mem_cons_of_mem _ hw) h1
      · simp at h1
        exact hnd.1 (h1 ▸ hw)
    obtain ⟨hwf2, hsnd2⟩ := ih (lruInsertOp id v s) hwf1 hnd.2 hfresh1
    refine ⟨by rw [hstep]; exact hwf2, ?_⟩
    rw [hstep, hsnd2, hlru1, List.map_append]
    simp

/-- Re-inserting a value already present removes the prior set entry and
appends a fresh one at the end, preserving the invariant. -/
theorem lruInsert_present (s : LRUState Nat) (v : Nat) (hwf : WFid s)
    (hv : v ∈ s.lru.map Prod.snd) :
    WFid (lruInsertOp id v s)
    ∧ (lruInsertOp id v s).lru.map Prod.snd = (s.lru.map Prod.snd).erase v ++ [v] := by
  obtain ⟨e, hemem, he2⟩ := List.mem_map.mp hv
  have hpair : (e.1, v) ∈ s.lru := by
    rw [← he2]
    exact hemem
  have hlook : alookup v s.map = some (e.1, v) := by
    have := hwf.look (e.1, v) hpair
    simpa using this
  have hlnd : s.lru.Nodup := List.Nodup.of_map _ hwf.nodup
  have happ : sortedIns (s.time + 1, v) (s.lru.erase (e.1, v)) = s.lru.erase (e.1, v) ++ [(s.time + 1, v)] :=
    sortedIns_append (fun y hy =>
      Nat.lt_succ_of_le (hwf.bound y (List.mem_of_mem_erase hy)))
  have hs1 : lruInsertOp id v s
      = ⟨s.lru.erase (e.1, v) ++ [(s.time + 1, v)],
          (v, (s.time + 1, v)) :: removeKey v s.map, s.time + 1⟩ := by
    simp only [lruInsertOp, id_eq, hlook, happ]
  have hmapsnd : (s.lru.erase (e.1, v)).map Prod.snd = (s.lru.map Prod.snd).erase v :=
    erase_map_snd hwf.nodup hpair
  have hnotmem : ∀ y ∈ s.lru.erase (e.1, v), y.2 ≠ v := by
    intro y hy hyv
    have hymem : y ∈ s.lru := List.mem_of_mem_erase hy
    have : y = (e.1, v) := nodup_snd_mem_eq hwf.nodup hymem hpair hyv
    rw [this] at hy
    exact hlnd.not_mem_erase hy
  constructor
  · rw [hs1]
    refine ⟨?_, ?_, ?_, ?_⟩
    · intro q hq
      rcases List.mem_append.mp hq with h1 | h1
      · exact Nat.le_succ_of_le (hwf.bound q (List.mem_of_mem_erase h1))
      · simp at h1
        subst h1
        exact Nat.le_refl _
    · rw [List.map_append, hmapsnd]
      refine List.Nodup.append (hwf.nodup.erase v) (List.nodup_singleton v) ?_
      intro a ha hb
      rw [List.mem_singleton.mp hb] at ha
      exact hwf.nodup.not_mem_erase ha
    · intro q hq
      rcases List.mem_append.mp hq with h1 | h1
      · have hne : q.2 ≠ v := hnotmem q h1
        rw [alookup_cons_ne _ _ (fun hee => hne hee.symm), alookup_removeKey_ne _ hne]
        exact hwf.look q (List.mem_of_mem_erase h1)
      · simp at h1
        rw [h1, alookup, if_pos rfl]
    · intro q hq
      rcases List.mem_cons.mp hq with h1 | h1
      · rw [h1]
        exact List.mem_append_right _ (by simp)
      · have hq2 := mem_removeKey h1
        have hlru := hwf.back q hq2.1
        refine List.mem_append_left _ ((hlnd.mem_erase_iff).mpr ⟨?_, hlru⟩)
        intro he
        exact hq2.2 (congrArg Prod.snd he)
  · rw [hs1]
    simp only [List.map_append, hmapsnd]
    simp

/-- C6: the LRU law. Inserting distinct values into an empty replacer
makes the next victims exactly those values in insertion order; Victim on
an empty replacer reports failure; and re-inserting a present value moves
it to most-recent, so the victim order becomes the remaining values in
order followed by the re-inserted one. Values are hashed by the identity,
the libstdc++ std::hash on integers. -/
theorem lru_replacer_law (vs ws : List Nat) (v : Nat)
    (h1 : vs.Nodup) (h2 : ws.Nodup) (hv : v ∈ ws) :
    victimsN vs.length (insertAll id vs emptyLRU) = vs.map some
    ∧ (lruVictimOp (emptyLRU : LRUState Nat)).1 = none
    ∧ victimsN ws.length (lruInsertOp id v (insertAll id ws emptyLRU))
        = (ws.erase v ++ [v]).map some := by
  refine ⟨?_, rfl, ?_⟩
  · obtain ⟨hwf, hsnd⟩ := insertAll_fresh vs emptyLRU wfid_empty h1 (by simp [emptyLRU])
    have hsnd2 : List.map Prod.snd (insertAll id vs emptyLRU).lru = vs := by
      simpa [emptyLRU] using hsnd
    have hlen := congrArg List.length hsnd2
    rw [List.length_map] at hlen
    have hmm : List.map (fun (e : Nat × Nat) => some e.2) (insertAll id vs emptyLRU).lru
        = List.map some (List.map Prod.snd (insertAll id vs emptyLRU).lru) := by
      rw [List.map_map]
      rfl
    rw [← hlen, victims_wf _ hwf, hmm, hsnd2]
  · obtain ⟨hwf, hsnd⟩ := insertAll_fresh ws emptyLRU wfid_empty h2 (by simp [emptyLRU])
    have hsnd2 : List.map Prod.snd (insertAll id ws emptyLRU).lru = ws := by
      simpa [emptyLRU] using hsnd
    obtain ⟨hwf2, hsnd3⟩ :=
      lruInsert_present (insertAll id ws emptyLRU) v hwf (by rw [hsnd2]; exact hv)
    rw [hsnd2] at hsnd3
    have hlen : (lruInsertOp id v (insertAll id ws emptyLRU)).lru.length = ws.length := by
      have hll := congrArg List.length hsnd3
      rw [List.length_map, List.length_append, List.length_singleton,
        List.length_erase_of_mem hv] at hll
      have hpos : 0 < ws.length := List.length_pos.mpr (List.ne_nil_of_mem hv)
      omega
    have hmm : List.map (fun (e : Nat × Nat) => some e.2) (lruInsertOp id v (insertAll id ws emptyLRU)).lru
        = List.map some (List.map Prod.snd (lruInsertOp id v (insertAll id ws emptyLRU)).lru) := by
      rw [List.map_map]
      rfl
    rw [← hlen, victims_wf _ hwf2, hmm, hsnd3]

/-- C6 witness: three distinct insertions are served back in order, and
re-inserting 1 into a replacer holding 1 then 2 yields victims 2 then 1. -/
theorem lru_replacer_law_witness :
    ([10, 20, 30] : List Nat).Nodup ∧ ([1, 2] : List Nat).Nodup ∧ (1 : Nat) ∈ [1, 2]
    ∧ victimsN 3 (insertAll id [10, 20, 30] emptyLRU) = [some 10, some 20, some 30]
    ∧ (lruVictimOp (emptyLRU : LRUState Nat)).1 = none
    ∧ victimsN 2 (lruInsertOp id 1 (insertAll id [1, 2] emptyLRU)) = [some 2, some 1] :=
  ⟨by decide, by decide, by decide,
    (lru_replacer_law [10, 20, 30] [1, 2] 1 (by decide) (by decide) (by decide)).1,
    (lru_replacer_law [10, 20, 30] [1, 2] 1 (by decide) (by decide) (by decide)).2.1,
    (lru_replacer_law [10, 20, 30] [1, 2] 1 (by decide) (by decide) (by decide)).2.2⟩

/-! ## Extendible hash: proofs

The invariant the implementation really maintains: the bucket array has
length 2^G, slot zero is never null, and every bucket local depth is at
most G. Null slots in the upper half of the array are normal after a
resize, which is what refutes the non-null part of the spec law. -/

/-- The directory invariant of this implementation. -/
def EHInv {V : Type} (s : EHState V) : Prop :=
  s.buckets.length = 2 ^ s.global_depth
  ∧ ((s.buckets.getD 0 none).isSome : Prop)
  ∧ ∀ b : EHBucket V, some b ∈ s.buckets → b.local_depth ≤ s.global_depth

theorem getD_some_mem {α : Type} {bs : List (Option α)} {i : Nat} {b : α}
    (h : bs.getD i none = some b) : some b ∈ bs := by
  rw [List.getD_eq_getElem?_getD] at h
  cases hob : bs[i]? with
  | none => rw [hob] at h; simp at h
  | some ob =>
    rw [hob] at h
    simp at h
    rw [h] at hob
    exact List.getElem?_mem hob

theorem bucketsModify_none {V : Type} {bs : List (Option (EHBucket V))} {i : Nat}
    (f : EHBucket V → EHBucket V) (h : bs.getD i none = none) :
    bucketsModify bs i f = bs := by
  unfold bucketsModify
  rw [h]

theorem bucketsModify_some {V : Type} {bs : List (Option (EHBucket V))} {i : Nat}
    {b : EHBucket V} (f : EHBucket V → EHBucket V) (h : bs.getD i none = some b) :
    bucketsModify bs i f = bs.set i (some (f b)) := by
  unfold bucketsModify
  rw [h]

theorem length_bucketsModify {V : Type} (bs : List (Option (EHBucket V))) (i : Nat)
    (f : EHBucket V → EHBucket V) : (bucketsModify bs i f).length = bs.length := by
  cases h : bs.getD i none with
  | none => rw [bucketsModify_none f h]
  | some b => rw [bucketsModify_some f h, List.length_set]

theorem isSome_getD_bucketsModify {V : Type} {bs : List (Option (EHBucket V))} {j : Nat}
    (i : Nat) (f : EHBucket V → EHBucket V) (h : (bs.getD j none).isSome) :
    ((bucketsModify bs i f).getD j none).isSome := by
  cases hgd : bs.getD i none with
  | none => rw [bucketsModify_none f hgd]; exact h
  | some b =>
    rw [bucketsModify_some f hgd]
    by_cases hij : i = j
    · subst hij
      have hlen : i < bs.length := by
        by_contra hge
        rw [List.getD_eq_getElem?_getD, List.getElem?_eq_none (by omega)] at hgd
        simp at hgd
      rw [List.getD_eq_getElem?_getD, List.getElem?_set_self hlen]
      rfl
    · rw [List.getD_eq_getElem?_getD, List.getElem?_set_ne hij,
        ← List.getD_eq_getElem?_getD]
      exact h

theorem mem_bucketsModify {V : Type} {bs : List (Option (EHBucket V))} {i : Nat}
    {f : EHBucket V → EHBucket V} {ob : Option (EHBucket V)}
    (h : ob ∈ bucketsModify bs i f) : ob ∈ bs ∨ ∃ b, ob = some (f b) ∧ some b ∈ bs := by
  cases hgd : bs.getD i none with
  | none =>
    rw [bucketsModify_none f hgd] at h
    exact Or.inl h
  | some b =>
    rw [bucketsModify_some f hgd] at h
    rcases List.mem_or_eq_of_mem_set h with h1 | h1
    · exact Or.inl h1
    · exact Or.inr ⟨b, h1, getD_some_mem hgd⟩

theorem foldl_preserve {α σ : Type} (P : σ → Prop) (f : σ → α → σ)
    (hf : ∀ s a, P s → P (f s a)) : ∀ (l : List α) (s : σ), P s → P (l.foldl f s)
  | [], _, h => h
  | a :: l, s, h => foldl_preserve P f hf l (f s a) (hf s a h)

theorem inv_bucketsModify {V : Type} (s : EHState V) (i : Nat) (f : EHBucket V → EHBucket V)
    (h : EHInv s) (hf : ∀ bb, some bb ∈ s.buckets → (f bb).local_depth ≤ s.global_depth) :
    EHInv { s with buckets := bucketsModify s.buckets i f } := by
  refine ⟨?_, ?_, ?_⟩
  · show (bucketsModify s.buckets i f).length = 2 ^ s.global_depth
    rw [length_bucketsModify]
    exact h.1
  · exact isSome_getD_bucketsModify i f h.2.1
  · intro b hb
    show b.local_depth ≤ s.global_depth
    rcases mem_bucketsModify hb with h1 | ⟨bb, heq, hmem⟩
    · exact h.2.2 b h1
    · rw [Option.some.injEq] at heq
      rw [heq]
      exact hf bb hmem

theorem lor_shift_ne_zero (i L : Nat) : i ||| (1 <<< L) ≠ 0 := by
  intro h0
  have ht := congrArg (fun x => Nat.testBit x L) h0
  simp only [Nat.testBit_lor, Nat.one_shiftLeft, Nat.testBit_two_pow_self,
    Bool.or_true, Nat.zero_testBit] at ht
  exact Bool.noConfusion ht

theorem inv_newbucket_resize {V : Type} (s : EHState V) (id : Nat) (b : EHBucket V)
    (h : EHInv s) (_hb : s.buckets.getD id none = some b)
    (hLG : b.local_depth = s.global_depth) :
    EHInv (⟨(s.buckets ++ List.replicate s.buckets.length none).set
        (id ||| (1 <<< b.local_depth)) (some ⟨0, []⟩),
      max s.global_depth (b.local_depth + 1), s.bucket_size⟩ : EHState V) := by
  have hpos : 0 < s.buckets.length := by
    rw [h.1]
    exact Nat.two_pow_pos _
  refine ⟨?_, ?_, ?_⟩
  · show ((s.buckets ++ List.replicate s.buckets.length none).set _ _).length
      = 2 ^ max s.global_depth (b.local_depth + 1)
    rw [List.length_set, List.length_append, List.length_replicate, h.1, hLG,
      Nat.max_eq_right (Nat.le_succ _), Nat.pow_succ]
    omega
  · show (((s.buckets ++ List.replicate s.buckets.length none).set _ _).getD 0 none).isSome
    rw [List.getD_eq_getElem?_getD,
      List.getElem?_set_ne (lor_shift_ne_zero id b.local_depth),
      List.getElem?_append_left hpos]
    have h0 := h.2.1
    rw [List.getD_eq_getElem?_getD] at h0
    exact h0
  · intro b2 hb2
    show b2.local_depth ≤ max s.global_depth (b.local_depth + 1)
    rcases List.mem_or_eq_of_mem_set hb2 with h1 | h1
    · rcases List.mem_append.mp h1 with h2 | h2
      · exact le_trans (h.2.2 b2 h2) (le_max_left _ _)
      · exact absurd (List.eq_of_mem_replicate h2) (by simp)
    · rw [Option.some.injEq] at h1
      rw [h1]
      exact Nat.zero_le _

theorem inv_newbucket_same {V : Type} (s : EHState V) (id : Nat) (b : EHBucket V)
    (h : EHInv s) (hb : s.buckets.getD id none = some b)
    (hLG : b.local_depth ≠ s.global_depth) :
    EHInv (⟨s.buckets.set (id ||| (1 <<< b.local_depth)) (some ⟨0, []⟩),
      max s.global_depth (b.local_depth + 1), s.bucket_size⟩ : EHState V) := by
  have hdep : b.local_depth ≤ s.global_depth := h.2.2 b (getD_some_mem hb)
  have hmax : max s.global_depth (b.local_depth + 1) = s.global_depth :=
    Nat.max_eq_left (by omega)
  refine ⟨?_, ?_, ?_⟩
  · show (s.buckets.set _ _).length = 2 ^ max s.global_depth (b.local_depth + 1)
    rw [List.length_set, h.1, hmax]
  · show ((s.buckets.set _ _).getD 0 none).isSome
    rw [List.getD_eq_getElem?_getD,
      List.getElem?_set_ne (lor_shift_ne_zero id b.local_depth)]
    have h0 := h.2.1
    rw [List.getD_eq_getElem?_getD] at h0
    exact h0
  · intro b2 hb2
    show b2.local_depth ≤ max s.global_depth (b.local_depth + 1)
    rcases List.mem_or_eq_of_mem_set hb2 with h1 | h1
    · exact le_trans (h.2.2 b2 h1) (le_max_left _ _)
    · rw [Option.some.injEq] at h1
      rw [h1]
      exact Nat.zero_le _

theorem ehRedisStep_inv {V : Type} (depth2 : Nat) (acc : EHState V) (e : Nat × V)
    (hacc : EHInv acc) : EHInv (ehRedisStep depth2 acc e) :=
  inv_bucketsModify acc (getFirstNBits e.1 depth2)
    (fun bb => { bb with elements := bb.elements ++ [e] })
    hacc (fun bb hm => hacc.2.2 bb hm)

theorem ehSplitCore_inv {V : Type} (s : EHState V) (id : Nat) (b : EHBucket V)
    (h : EHInv s) (hb : s.buckets.getD id none = some b) :
    EHInv (ehSplitCore s id b) := by
  by_cases hLG : b.local_depth = s.global_depth
  · have h3 := inv_newbucket_resize s id b h hb hLG
    have h4 := inv_bucketsModify _ id (fun bb => { bb with local_depth := b.local_depth + 1 })
      h3 (fun bb _ => le_max_right _ _)
    have h5 := inv_bucketsModify _ (id ||| (1 <<< b.local_depth))
      (fun bb => { bb with local_depth := b.local_depth + 1 })
      h4 (fun bb _ => le_max_right _ _)
    have h6 := inv_bucketsModify _ id (fun bb => { bb with elements := [] })
      h5 (fun bb hm => h5.2.2 bb hm)
    have h7 := foldl_preserve EHInv (ehRedisStep (b.local_depth + 1))
      (fun acc e hacc => ehRedisStep_inv (b.local_depth + 1) acc e hacc)
      b.elements _ h6
    simp only [ehSplitCore, if_pos hLG]
    exact h7
  · have h3 := inv_newbucket_same s id b h hb hLG
    have h4 := inv_bucketsModify _ id (fun bb => { bb with local_depth := b.local_depth + 1 })
      h3 (fun bb _ => le_max_right _ _)
    have h5 := inv_bucketsModify _ (id ||| (1 <<< b.local_depth))
      (fun bb => { bb with local_depth := b.local_depth + 1 })
      h4 (fun bb _ => le_max_right _ _)
    have h6 := inv_bucketsModify _ id (fun bb => { bb with elements := [] })
      h5 (fun bb hm => h5.2.2 bb hm)
    have h7 := foldl_preserve EHInv (ehRedisStep (b.local_depth + 1))
      (fun acc e hacc => ehRedisStep_inv (b.local_depth + 1) acc e hacc)
      b.elements _ h6
    simp only [ehSplitCore, if_neg hLG]
    exact h7

theorem ehSplit_succ_eq {V : Type} (fuel : Nat) (s : EHState V) (id : Nat) :
    ehSplit (fuel + 1) s id = match s.buckets.getD id none with
      | none => s
      | some b =>
        let s7 := ehSplitCore s id b
        let new_id := id ||| (1 <<< b.local_depth)
        let s8 := if bucketOverflows s7.buckets id s7.bucket_size then ehSplit fuel s7 id else s7
        if bucketOverflows s8.buckets new_id s8.bucket_size then ehSplit fuel s8 new_id else s8 := rfl

theorem inv_overflow_ite {V : Type} (fuel : Nat) (c : Prop) [Decidable c]
    (t : EHState V) (j : Nat)
    (hstep : ∀ (u : EHState V) (k : Nat), EHInv u → EHInv (ehSplit fuel u k))
    (ht : EHInv t) : EHInv (if c then ehSplit fuel t j else t) := by
  split
  · exact hstep t j ht
  · exact ht

theorem ehSplit_inv {V : Type} (fuel : Nat) : ∀ (s : EHState V) (id : Nat),
    EHInv s → EHInv (ehSplit fuel s id) := by
  induction fuel with
  | zero => intro s id h; exact h
  | succ fuel ih =>
    intro s id h
    cases hgd : s.buckets.getD id none with
    | none =>
      rw [ehSplit_succ_eq, hgd]
      exact h
    | some b =>
      rw [ehSplit_succ_eq, hgd]
      exact inv_overflow_ite fuel _ _ _ ih
        (inv_overflow_ite fuel _ _ _ ih (ehSplitCore_inv s id b h hgd))

theorem ehInsert_inv {V : Type} (fuel hk : Nat) (v : V) (s : EHState V)
    (hi : EHInv s) : EHInv (ehInsert fuel hk v s) := by
  have h1 := inv_bucketsModify s (hashKeyIdx s hk)
    (fun bb => { bb with elements := bb.elements ++ [(hk, v)] })
    hi (fun bb hm => hi.2.2 bb hm)
  show EHInv (if bucketOverflows _ _ _ then ehSplit fuel _ _ else _)
  split
  · exact ehSplit_inv fuel _ _ h1
  · exact h1

theorem ehRemove_inv {V : Type} (hk : Nat) (s : EHState V) (hi : EHInv s) :
    EHInv (ehRemove hk s) :=
  inv_bucketsModify s (hashKeyIdx s hk)
    (fun bb => { bb with elements := bb.elements.filter (fun e => e.1 ≠ hk) })
    hi (fun bb hm => hi.2.2 bb hm)

theorem ehInit_inv {V : Type} (sz : Nat) : EHInv (ehInit V sz) := by
  refine ⟨rfl, rfl, ?_⟩
  intro b hb
  simp [ehInit] at hb
  rw [hb]
  exact Nat.le_refl _

/-- C4 amended: in every reachable state the directory has length 2^G
where G is the global depth, directory entry zero is non-null, and every
bucket local depth is at most G; directory entries other than zero may
however be null (HashKey walks down to shorter low-bit prefixes until a
non-null bucket appears), so the every-entry-non-null and the
low-L-bit aliasing laws of the claim do not hold of this
implementation. -/
theorem ehDirectory_inv_amended {V : Type} (ops : List (EHOp V)) (sz : Nat) :
    EHInv (ehRun ops sz) := by
  refine foldl_preserve EHInv ehStep ?_ ops (ehInit V sz) (ehInit_inv sz)
  intro s op hs
  cases op with
  | ins fuel hk v => exact ehInsert_inv fuel hk v s hs
  | del hk => exact ehRemove_inv hk s hs

/-- C4 counterexample: with bucket capacity one, inserting hashes 1 and 3
reaches global depth 2 with directory [b, b, null, b]: entry 2 is null,
and although indices 0 and 2 agree on the low bit (the local depth of the
bucket at index 0 is 1), they do not reference the same bucket, refuting
both the non-null part and the aliasing part of the claimed law. -/
theorem ehDirectory_null_entry_cex :
    (ehRun ([.ins 5 1 1, .ins 5 3 3] : List (EHOp Nat)) 1).buckets.getD 2 none = none
    ∧ (ehRun ([.ins 5 1 1, .ins 5 3 3] : List (EHOp Nat)) 1).global_depth = 2
    ∧ (ehRun ([.ins 5 1 1, .ins 5 3 3] : List (EHOp Nat)) 1).buckets.length = 4
    ∧ ((ehRun ([.ins 5 1 1, .ins 5 3 3] : List (EHOp Nat)) 1).buckets.getD 0 none).map
        (fun bb => bb.local_depth) = some 1
    ∧ getFirstNBits 0 1 = getFirstNBits 2 1
    ∧ (ehRun ([.ins 5 1 1, .ins 5 3 3] : List (EHOp Nat)) 1).buckets.getD 2 none
      ≠ (ehRun ([.ins 5 1 1, .ins 5 3 3] : List (EHOp Nat)) 1).buckets.getD 0 none := by
  decide

/-- C4 witness: the amended invariant evaluated on the counterexample
run. -/
theorem ehDirectory_inv_amended_witness :
    (ehRun ([.ins 5 1 1, .ins 5 3 3] : List (EHOp Nat)) 1).buckets.length
      = 2 ^ (ehRun ([.ins 5 1 1, .ins 5 3 3] : List (EHOp Nat)) 1).global_depth :=
  (ehDirectory_inv_amended [.ins 5 1 1, .ins 5 3 3] 1).1

end CmuDB
